import Mathlib

/-!
Verification of the agent execution loop and output-parsing contract of a
multi-agent orchestration backend.

Strings are modelled as `List Char`.  Python library primitives used by the
source (`str.split`, `str.strip`, `str.replace`, `re.search` for the specific
patterns appearing in the code, dict access, `str.endswith`, `str.upper`) are
translated as executable Lean functions over `List Char`.  Each translated
definition names the source function it embeds.
-/

/-- Boolean prefix test on character lists; models Python `str.startswith` and
is the basic building block for substring search. -/
def isPre : List Char → List Char → Bool
  | [], _ => true
  | _ :: _, [] => false
  | a :: as, b :: bs => (a == b) && isPre as bs

/-- Substring test; models the Python `in` operator on strings. -/
def containsSub (sep : List Char) : List Char → Bool
  | [] => isPre sep []
  | c :: cs => isPre sep (c :: cs) || containsSub sep cs

/-- Whitespace set of Python `str.strip()` and of the regex class `\s`
(ASCII: space, tab, newline, carriage return, vertical tab, form feed). -/
def pyIsSpace (c : Char) : Bool :=
  c == ' ' || c == '\t' || c == '\n' || c == '\r' ||
  c == Char.ofNat 11 || c == Char.ofNat 12

/-- Python `str.strip()`: remove leading and trailing whitespace. -/
def pyStrip (s : List Char) : List Char :=
  ((s.dropWhile pyIsSpace).reverse.dropWhile pyIsSpace).reverse

/-- Python `str.strip(q)` for a single-character argument `q`. -/
def pyStripChar (q : Char) (s : List Char) : List Char :=
  ((s.dropWhile (fun c => c == q)).reverse.dropWhile (fun c => c == q)).reverse

/-- The double-quote character. -/
def cQuote : Char := Char.ofNat 34

/-- The single-quote character. -/
def cApos : Char := Char.ofNat 39

/-- The backslash character. -/
def cBackslash : Char := Char.ofNat 92

/-- Fueled worker for `pySplit`.  Fuel only serves termination; the initial
fuel `s.length` is always sufficient because every step consumes at least one
character. -/
def pySplitAux (sep : List Char) : Nat → List Char → List (List Char)
  | 0, s => [s]
  | fuel + 1, s =>
    match s with
    | [] => [[]]
    | c :: cs =>
      if isPre sep (c :: cs) && !sep.isEmpty then
        [] :: pySplitAux sep fuel ((c :: cs).drop sep.length)
      else
        match pySplitAux sep fuel cs with
        | [] => [[c]]
        | h :: t => (c :: h) :: t

/-- Python `str.split(sep)` for a non-empty separator: the chunks between the
left-to-right non-overlapping occurrences of `sep`. -/
def pySplit (sep s : List Char) : List (List Char) :=
  pySplitAux sep s.length s

/-- Python `str.split(sep, 1)` under the guarded use in the source (the source
only calls it after checking `sep in s`): the pair (before the first
occurrence, after the first occurrence). -/
def pySplitOnce (sep : List Char) : List Char → List Char × List Char
  | [] => ([], [])
  | c :: cs =>
    if isPre sep (c :: cs) && !sep.isEmpty then
      ([], (c :: cs).drop sep.length)
    else
      let p := pySplitOnce sep cs
      (c :: p.1, p.2)

/-- Fueled worker for `replaceAll`, as for `pySplitAux`. -/
def replaceAllAux (pat rep : List Char) : Nat → List Char → List Char
  | 0, s => s
  | fuel + 1, s =>
    match s with
    | [] => []
    | c :: cs =>
      if isPre pat (c :: cs) && !pat.isEmpty then
        rep ++ replaceAllAux pat rep fuel ((c :: cs).drop pat.length)
      else
        c :: replaceAllAux pat rep fuel cs

/-- Python `str.replace(pat, rep)`: replace every left-to-right
non-overlapping occurrence. -/
def replaceAll (pat rep s : List Char) : List Char :=
  replaceAllAux pat rep s.length s

/-- Spec-side definition ("everything after the last occurrence of the
marker"): if the marker occurs in the tail, the last occurrence lies in the
tail; otherwise, if the string starts with the marker, that occurrence is the
last one.  Returns the whole string when the marker does not occur. -/
def specAfterLast (sep : List Char) : List Char → List Char
  | [] => []
  | c :: cs =>
    if containsSub sep cs then specAfterLast sep cs
    else if isPre sep (c :: cs) then (c :: cs).drop sep.length
    else c :: cs

/-- Spec-side definition: everything before the first occurrence of the
marker (the whole string when the marker does not occur). -/
def specBeforeFirst (sep : List Char) : List Char → List Char
  | [] => []
  | c :: cs =>
    if isPre sep (c :: cs) then []
    else c :: specBeforeFirst sep cs

/-- Spec-side definition: everything after the first occurrence of the marker
(empty when the marker does not occur). -/
def specAfterFirst (sep : List Char) : List Char → List Char
  | [] => []
  | c :: cs =>
    if isPre sep (c :: cs) then (c :: cs).drop sep.length
    else specAfterFirst sep cs

/-- A pattern is overlap free when none of its proper non-empty suffixes is
one of its prefixes; for such patterns the left-to-right non-overlapping
occurrence scan of Python `str.split` finds every occurrence, so the last
chunk of the split is exactly the substring after the last occurrence. -/
def overlapFree (sep : List Char) : Bool :=
  (List.range sep.length).all (fun k => (k == 0) || !(isPre (sep.drop k) sep))

/-- The final-answer protocol marker. -/
def finalMarkerChars : List Char := ("Final Answer:".toList)

/-- The action protocol marker. -/
def actionMarkerChars : List Char := ("Action:".toList)

/-- The action-input protocol marker. -/
def inputMarkerChars : List Char := ("Action Input:".toList)

/-- The observation protocol marker used for truncation by the parser
(`"\nObservation:"` in `CustomOutputParser.parse`). -/
def obsMarkerChars : List Char := ("\nObservation:".toList)

/-- Result of classifying one model completion: either a final answer
(`AgentFinish` in the source) or a tool invocation request (`AgentAction`). -/
inductive ParseResult where
  | finish (output : List Char)
  | action (tool : List Char) (rawInput : List Char)
deriving DecidableEq

/-- True exactly on the `action` constructor. -/
def ParseResult.isAct : ParseResult → Bool
  | .finish _ => false
  | .action _ _ => true

/-- Embedding of `CustomOutputParser.parse` (src/agent/developer_agent.py).
The source's leading `isinstance(text, list)` coercion is the identity on
string inputs and is omitted; the `try`/`except` around the action extraction
is modelled directly because none of the operations in the `try` block can
raise on a string (`split` and `strip` are total), so the `except` arm is the
same fall-through `AgentFinish` as the final return. -/
def parse (text : List Char) : ParseResult :=
  if containsSub finalMarkerChars text then
    .finish (pyStrip (List.getLastD (pySplit finalMarkerChars text) []))
  else if containsSub actionMarkerChars text && containsSub inputMarkerChars text then
    let actionBlock := List.getLastD (pySplit actionMarkerChars text) []
    if containsSub inputMarkerChars actionBlock then
      let parts := pySplitOnce inputMarkerChars actionBlock
      let actName := pyStrip parts.1
      let ai0 := pyStrip parts.2
      let ai1 :=
        if containsSub obsMarkerChars ai0 then
          pyStrip (pySplitOnce obsMarkerChars ai0).1
        else ai0
      .action actName (pyStrip (pyStripChar cApos (pyStripChar cQuote ai1)))
    else
      .finish (pyStrip text)
  else
    .finish (pyStrip text)

/-- The raw-input extraction exactly as the claim words it: the substring
after the action-input marker, truncated at the next observation marker (or
end of string), then trimmed with outer quote characters stripped. -/
def claimRawInput (text : List Char) : List Char :=
  let right := specAfterFirst inputMarkerChars (specAfterLast actionMarkerChars text)
  let upto :=
    if containsSub obsMarkerChars right then specBeforeFirst obsMarkerChars right
    else right
  pyStripChar cApos (pyStripChar cQuote (pyStrip upto))

/-- The raw-input extraction in the source's order, written with the
spec-side substring primitives: trim first, then truncate at an observation
marker still present after trimming, then strip outer quotes and trim. -/
def amendedRawInput (text : List Char) : List Char :=
  let ai0 := pyStrip (specAfterFirst inputMarkerChars (specAfterLast actionMarkerChars text))
  let ai1 :=
    if containsSub obsMarkerChars ai0 then pyStrip (specBeforeFirst obsMarkerChars ai0)
    else ai0
  pyStrip (pyStripChar cApos (pyStripChar cQuote ai1))

/-- Key string `"file_path"`. -/
def fpKeyChars : List Char := ("file_path".toList)

/-- Key string `"content"`. -/
def ctKeyChars : List Char := ("content".toList)

/-- Matcher for the common head of the two tier-3 regexes of
`DeveloperAgent._safe_parse_json`: the literal quoted key, `\s*`, a colon,
`\s*`, and an opening double quote; returns the remainder after the opening
quote.  `\s*` followed by a colon is deterministic because no whitespace
character is a colon. -/
def afterKeyColonQuote (key s : List Char) : Option (List Char) :=
  let kq := cQuote :: (key ++ [cQuote])
  if isPre kq s then
    match (s.drop kq.length).dropWhile pyIsSpace with
    | c :: r3 =>
      if c == ':' then
        match r3.dropWhile pyIsSpace with
        | q :: r5 => if q == cQuote then some r5 else none
        | [] => none
      else none
    | [] => none
  else none

/-- Capture of `([^"]+)"`: the maximal run of non-quote characters, which
must be non-empty and followed by a closing quote. -/
def capNonQuote (r5 : List Char) : Option (List Char) :=
  let cap := r5.takeWhile (fun c => !(c == cQuote))
  if cap.isEmpty then none
  else
    match r5.dropWhile (fun c => !(c == cQuote)) with
    | _ :: _ => some cap
    | [] => none

/-- Capture of greedy `(.+)"` without DOTALL: within the current line (`.`
does not match a newline), everything up to the last double quote, which must
be preceded by at least one captured character. -/
def capToLastQuote (r5 : List Char) : Option (List Char) :=
  let line := r5.takeWhile (fun c => !(c == '\n'))
  match line.reverse.dropWhile (fun c => !(c == cQuote)) with
  | _ :: pre => if pre.isEmpty then none else some pre.reverse
  | [] => none

/-- Embedding of `re.search(r'"file_path"\s*:\s*"([^"]+)"', s)` restricted to
its group 1: try a match at each successive start position. -/
def searchFilePath : List Char → Option (List Char)
  | [] => none
  | c :: cs =>
    match (afterKeyColonQuote fpKeyChars (c :: cs)).bind capNonQuote with
    | some m => some m
    | none => searchFilePath cs

/-- Embedding of `re.search(r'"content"\s*:\s*"(.+)"', s)` restricted to its
group 1. -/
def searchContent : List Char → Option (List Char)
  | [] => none
  | c :: cs =>
    match (afterKeyColonQuote ctKeyChars (c :: cs)).bind capToLastQuote with
    | some m => some m
    | none => searchContent cs

/-- The `cleaned` string built by tier 2 of `DeveloperAgent._safe_parse_json`:
strip, escape real newlines to backslash-n, and append a closing brace if the
text does not already end with one. -/
def cleanedOf (input : List Char) : List Char :=
  let c1 := replaceAll ['\n'] [cBackslash, 'n'] (pyStrip input)
  if [Char.ofNat 125].isSuffixOf c1 then c1 else c1 ++ [Char.ofNat 125]

/-- Embedding of `DeveloperAgent._safe_parse_json`.  `json.loads` is the
Python standard library and is treated as the abstract strict parser
`strict`; the dict literal built by tier 3 from the two recovered fields is
`mk m1 m2`.  The tier structure is translated exactly: tier 1 strict parse of
the raw input; on failure tier 2 strict parse of `cleanedOf input`; on
failure tier 3 regex extraction of both required fields, failing to `none`
unless both are recovered. -/
def safeParseJson {α : Type} (strict : List Char → Option α)
    (mk : List Char → List Char → α) (input : List Char) : Option α :=
  match strict input with
  | some v => some v
  | none =>
    let cleaned := cleanedOf input
    match strict cleaned with
    | some v => some v
    | none =>
      match searchFilePath cleaned, searchContent cleaned with
      | some m1, some m2 => some (mk m1 m2)
      | _, _ => none

/-- String-valued dict, the shape of structured tool input the file wrappers
consume (`{"file_path": ..., "content": ...}`). -/
abbrev StrDict : Type := List (List Char × List Char)

/-- Python `dict.get` on an association list. -/
def lookupKey {β : Type} (k : List Char) : List (List Char × β) → Option β
  | [] => none
  | (k', v) :: rest => if k' = k then some v else lookupKey k rest

/-- Remove a key from an association list; models Python `del d[k]` (under
the unique-keys invariant of a dict). -/
def eraseKey {β : Type} (k : List Char) : List (List Char × β) → List (List Char × β)
  | [] => []
  | (k', v) :: rest => if k' = k then eraseKey k rest else (k', v) :: eraseKey k rest

/-- The dict literal tier 3 of `_safe_parse_json` returns:
`{"file_path": m1, "content": m2}`. -/
def mkFPDict (m1 m2 : List Char) : StrDict :=
  [(fpKeyChars, m1), (ctKeyChars, m2)]

/-- Literal `\n` (backslash followed by the letter n). -/
def litBackslashN : List Char := [cBackslash, 'n']

/-- Literal `\t` (backslash followed by the letter t). -/
def litBackslashT : List Char := [cBackslash, 't']

/-- Fueled worker for `reSubColonSpace` (fuel as in `pySplitAux`). -/
def reSubAux : Nat → List Char → List Char
  | 0, s => s
  | _ + 1, [] => []
  | fuel + 1, c :: rest =>
    if c == ':' then
      let ws := rest.takeWhile pyIsSpace
      let rem := rest.dropWhile pyIsSpace
      if !ws.isEmpty && !rem.isEmpty then
        c :: '\n' :: (("    ".toList) ++ reSubAux fuel rem)
      else c :: reSubAux fuel rest
    else c :: reSubAux fuel rest

/-- Embedding of `re.sub(r':\s+(?=\S)', ':\n    ', s)`: each colon followed
by a non-empty maximal whitespace run that is in turn followed by a
non-whitespace character is rewritten to a colon, newline and four spaces;
scanning resumes after the matched whitespace run. -/
def reSubColonSpace (s : List Char) : List Char :=
  reSubAux s.length s

/-- Embedding of `DeveloperAgent._fix_python_formatting`. -/
def fixPythonFormatting (content : List Char) : List Char :=
  if containsSub litBackslashN content && !(containsSub ['\n'] content) then
    replaceAll litBackslashT ['\t'] (replaceAll litBackslashN ['\n'] content)
  else if containsSub ['\n'] content then
    content
  else if containsSub ("def ".toList) content || containsSub ("class ".toList) content
      || containsSub ("import ".toList) content then
    let fixed := reSubColonSpace content
    if ['\n'].isSuffixOf fixed then fixed else fixed ++ ['\n']
  else content

/-- What a file wrapper call amounts to: either an error dict returned
directly to the loop (`{"status": status, "message": message}`), or a
delegation to the underlying `file_ops` backend with the final path and
content. -/
inductive WrapResult where
  | reply (status message : List Char)
  | fileOp (append : Bool) (path content : List Char)
deriving DecidableEq

/-- The status value `"error"`. -/
def errStatusChars : List Char := ("error".toList)

/-- The invalid-JSON message of `_write_file_wrapper` and
`_append_to_file_wrapper` (identical in both). -/
def invalidJsonMsgChars : List Char :=
  ("Invalid JSON format. Could not parse input. Example: \x7b\"file_path\": \"example.py\", \"content\": \"def hello():\\\\n    print(\x27Hi\x27)\"\x7d".toList)

/-- The missing-field message of both wrappers. -/
def requiredMsgChars : List Char :=
  ("Both \x27file_path\x27 and \x27content\x27 are required.".toList)

/-- The `.py` suffix checked by both wrappers. -/
def pyExtChars : List Char := (".py".toList)

/-- Common body of `_write_file_wrapper` and `_append_to_file_wrapper`
(src/agent/developer_agent.py); the two differ only in which backend call
they delegate to, recorded in the `append` flag.  The wrappers' outer
`except json.JSONDecodeError` arms are unreachable because
`_safe_parse_json` catches `JSONDecodeError` internally and no other
statement on this path raises it, so they are not part of the model. -/
def fileWrapperBody (append : Bool) (strict : List Char → Option StrDict)
    (input : List Char) : WrapResult :=
  match safeParseJson strict mkFPDict input with
  | none => .reply errStatusChars invalidJsonMsgChars
  | some data =>
    if data.isEmpty then .reply errStatusChars invalidJsonMsgChars
    else
      match lookupKey fpKeyChars data, lookupKey ctKeyChars data with
      | some fp, some ct =>
        if fp.isEmpty then .reply errStatusChars requiredMsgChars
        else
          .fileOp append fp (if pyExtChars.isSuffixOf fp then fixPythonFormatting ct else ct)
      | _, _ => .reply errStatusChars requiredMsgChars

/-- Embedding of `DeveloperAgent._write_file_wrapper`. -/
def writeFileWrapper (strict : List Char → Option StrDict) (input : List Char) : WrapResult :=
  fileWrapperBody false strict input

/-- Embedding of `DeveloperAgent._append_to_file_wrapper`. -/
def appendToFileWrapper (strict : List Char → Option StrDict) (input : List Char) : WrapResult :=
  fileWrapperBody true strict input

/-- Prefix of the synthesized partial-result summary in `main.py`. -/
def partialPrefixChars : List Char := ("Task partially completed. Last action: ".toList)

/-- Separator before the last observation in the synthesized summary. -/
def resultSepChars : List Char := ("\nResult: ".toList)

/-- Fallback text when the agent produced no output and took no steps. -/
def noOutputChars : List Char := ("Agent completed but no output was generated.".toList)

/-- Embedding of the result-recovery logic shared by `process_query` and
`stream_agent_response` (src/main.py): given the agent's `output` and its
`intermediate_steps` (pairs of tool name and observation), synthesize the
caller-visible response text.  Python string truthiness (`not response_text`)
is emptiness. -/
def deriveResponseText (output : List Char) (steps : List (List Char × List Char)) : List Char :=
  if output.isEmpty && !steps.isEmpty then
    let last := List.getLastD steps ([], [])
    partialPrefixChars ++ last.1 ++ resultSepChars ++ last.2
  else if output.isEmpty then noOutputChars
  else output

/-- One chat message (src/session_manager.py `ChatSession.add_message`
payload).  Timestamps are instants on an abstract integer clock. -/
structure MessageRec where
  role : List Char
  content : List Char
  timestamp : Int
deriving DecidableEq

/-- Embedding of `ChatSession` (src/session_manager.py). -/
structure SessionRec where
  sessionId : List Char
  createdAt : Int
  lastAccessed : Int
  messages : List MessageRec
deriving DecidableEq

/-- Embedding of the `SessionManager` state: the session map (a dict, keys
unique) and the configured idle timeout. -/
structure SessionMgr where
  sessions : List (List Char × SessionRec)
  timeout : Int
deriving DecidableEq

/-- Embedding of `SessionManager.get_session`: look the id up; on a hit whose
idle time `now - last_accessed` strictly exceeds the timeout, delete the
session and return `None`.  The whole body runs under `self.lock` in the
source, so it is modelled as one atomic state transformation returning the
result and the successor state. -/
def getSession (now : Int) (mgr : SessionMgr) (sid : List Char) :
    Option SessionRec × SessionMgr :=
  match lookupKey sid mgr.sessions with
  | none => (none, mgr)
  | some s =>
    if mgr.timeout < now - s.lastAccessed then
      (none, { mgr with sessions := eraseKey sid mgr.sessions })
    else (some s, mgr)

/-- Embedding of `SessionManager.get_active_sessions_count`. -/
def activeSessionsCount (mgr : SessionMgr) : Nat :=
  mgr.sessions.length

/-- Embedding of `ChatSession.add_message`: append one message and update
`last_accessed`.  The source reads `datetime.now()` twice in direct
succession; both reads are modelled as the same instant `now`. -/
def addMessage (now : Int) (s : SessionRec) (role content : List Char) : SessionRec :=
  { s with
    messages := s.messages ++ [⟨role, content, now⟩]
    lastAccessed := now }

/-- Outcome of the (abstract, possibly raising) LLM or sub-agent call a
review stage makes: a returned string or a raised exception's message. -/
inductive LlmOutcome where
  | ok (response : List Char)
  | exc (message : List Char)
deriving DecidableEq

/-- Verdict dict built by `DevOpsLeadAgent.review`
(src/agent/devops_lead_agent.py). -/
structure DevopsVerdict where
  status : List Char
  review : List Char
  decision : List Char
  comments : List (List Char)
  issues : List (List Char)
  suggestions : List (List Char)
deriving DecidableEq

/-- Verdict dict built by `DevLeadAgent.review`
(src/agent/dev_lead_agent.py). -/
structure DevVerdict where
  status : List Char
  review : List Char
  decision : List Char
deriving DecidableEq

/-- Python `str.upper()` on ASCII text. -/
def pyUpper (s : List Char) : List Char := s.map Char.toUpper

/-- The comma-separated item lists of `DevOpsLeadAgent.review`:
`[c.strip() for c in s.split(",") if c.strip()]`. -/
def splitCommaClean (s : List Char) : List (List Char) :=
  ((pySplit [','] s).map pyStrip).filter (fun x => !x.isEmpty)

/-- Decision extraction of `DevOpsLeadAgent.review`: containment checks on
the upper-cased response, defaulting to approved. -/
def devopsDecision (response : List Char) : List Char :=
  let up := pyUpper response
  if containsSub ("APPROVED".toList) up then ("approved".toList)
  else if containsSub ("NEEDS_IMPROVEMENT".toList) up
      || containsSub ("NEEDS IMPROVEMENT".toList) up then ("needs_improvement".toList)
  else if containsSub ("REJECTED".toList) up then ("rejected".toList)
  else ("approved".toList)

/-- Accumulator of the line scan in `DevOpsLeadAgent.review`; later matching
lines overwrite earlier ones, as reassignment does in the source loop. -/
structure SectionAcc where
  summary : List Char
  comments : List (List Char)
  issues : List (List Char)
  suggestions : List (List Char)
deriving DecidableEq

/-- One iteration of the `for line in lines` scan of
`DevOpsLeadAgent.review`. -/
def processReviewLine (acc : SectionAcc) (line : List Char) : SectionAcc :=
  if isPre ("Summary:".toList) line then
    { acc with summary := pyStrip (replaceAll ("Summary:".toList) [] line) }
  else if isPre ("Comments:".toList) line then
    { acc with comments := splitCommaClean (pyStrip (replaceAll ("Comments:".toList) [] line)) }
  else if isPre ("Issues:".toList) line then
    { acc with issues := splitCommaClean (pyStrip (replaceAll ("Issues:".toList) [] line)) }
  else if isPre ("Suggestions:".toList) line then
    { acc with suggestions := splitCommaClean (pyStrip (replaceAll ("Suggestions:".toList) [] line)) }
  else acc

/-- Embedding of `DevOpsLeadAgent.review` as a function of the outcome of its
`self.llm.invoke(review_prompt)` call (the prompt text itself is
configuration data and the LLM an external capability).  Everything inside
the source's `try` block after the call is total string processing, so the
`except` arm is reached exactly when the call raises. -/
def devopsReview (outcome : LlmOutcome) : DevopsVerdict :=
  match outcome with
  | .ok response =>
    let acc := (pySplit ['\n'] response).foldl processReviewLine ⟨response, [], [], []⟩
    ⟨("success".toList), acc.summary, devopsDecision response,
      acc.comments, acc.issues, acc.suggestions⟩
  | .exc e =>
    ⟨("error".toList), ("Review failed: ".toList) ++ e, ("error".toList), [], [e], []⟩

/-- Embedding of `DevLeadAgent.review` as a function of the outcome of its
`self.agent.run(...)` call. -/
def devReview (outcome : LlmOutcome) : DevVerdict :=
  match outcome with
  | .ok response => ⟨("success".toList), response, ("approved".toList)⟩
  | .exc e => ⟨("error".toList), ("Review failed: ".toList) ++ e, ("error".toList)⟩

/-- A completion whose last action marker comes after its action-input
marker. -/
def ceTextA : List Char := ("Action: foo\nAction Input: bar\nAction: baz".toList)

/-- A completion whose action-input value starts with a newline directly
followed by an observation marker. -/
def ceTextB : List Char := ("Action: t\nAction Input:\nObservation: obs".toList)

/-- A completion carrying a final answer after thought and action text. -/
def wFinalText : List Char :=
  ("Thought: done\nAction: x\nFinal Answer:  42 ".toList)

/-- A well-formed action completion. -/
def wActionText : List Char :=
  ("Action: read_file\nAction Input: \"a.txt\"\nObservation: data".toList)

/-- A bare conversational reply with no protocol markers. -/
def wBareText : List Char := (" I cannot help with that. ".toList)

/-- A syntactically strict JSON tool input. -/
def demoInputA : List Char :=
  ("\x7b\"file_path\": \"a.py\", \"content\": \"x\"\x7d".toList)

/-- The dict value of `demoInputA`. -/
def demoDictA : StrDict := [(fpKeyChars, ("a.py".toList)), (ctKeyChars, ("x".toList))]

/-- A strict parser stub succeeding exactly on `demoInputA`. -/
def demoStrictA : List Char → Option StrDict :=
  fun s => if s = demoInputA then some demoDictA else none

/-- A strict parser stub that always fails. -/
def alwaysNone : List Char → Option StrDict := fun _ => none

/-- A tool input no repair tier can recover. -/
def demoInputB : List Char := ("not json".toList)

/-- A tool input whose strict parse is stubbed by `demoStrictC`. -/
def demoInputC : List Char := ("payload".toList)

/-- Parsed dict with a `.py` path and single-line content holding literal
backslash-n sequences. -/
def demoDictC : StrDict :=
  [(fpKeyChars, ("a.py".toList)), (ctKeyChars, ("def f():\\n    pass".toList))]

/-- A strict parser stub succeeding exactly on `demoInputC`. -/
def demoStrictC : List Char → Option StrDict :=
  fun s => if s = demoInputC then some demoDictC else none

/-- A one-session store whose session was last accessed at instant 0. -/
def demoSess : SessionRec := ⟨("abc".toList), 0, 0, []⟩

/-- A session manager holding `demoSess` with a timeout of 60. -/
def demoMgr : SessionMgr := ⟨[(("abc".toList), demoSess)], 60⟩

theorem isPre_iff (a : List Char) : ∀ b, isPre a b = true ↔ ∃ t, b = a ++ t := by
  induction a with
  | nil =>
    intro b
    simp [isPre]
  | cons x as ih =>
    intro b
    cases b with
    | nil =>
      simp [isPre]
    | cons y bs =>
      simp only [isPre, Bool.and_eq_true, beq_iff_eq, ih, List.cons_append]
      constructor
      · rintro ⟨rfl, t, rfl⟩
        exact ⟨t, rfl⟩
      · rintro ⟨t, h⟩
        cases h
        exact ⟨rfl, t, rfl⟩

theorem isPre_append_self (a t : List Char) : isPre a (a ++ t) = true :=
  (isPre_iff a (a ++ t)).mpr ⟨t, rfl⟩

theorem isPre_of_append_eq (x : List Char) :
    ∀ (s r v : List Char), x ++ r = s ++ v → x.length ≤ s.length → isPre x s = true := by
  induction x with
  | nil => intro s r v _ _; simp [isPre]
  | cons a x' ih =>
    intro s r v heq hlen
    cases s with
    | nil => simp at hlen
    | cons b s' =>
      simp only [List.cons_append, List.cons.injEq] at heq
      simp only [List.length_cons, Nat.add_le_add_iff_right] at hlen
      simp only [isPre, Bool.and_eq_true, beq_iff_eq]
      exact ⟨heq.1, ih s' r v heq.2 hlen⟩

theorem dropAppendLe (n : Nat) : ∀ (a b : List Char), n ≤ a.length →
    (a ++ b).drop n = a.drop n ++ b := by
  induction n with
  | zero => intro a b _; simp
  | succ m ih =>
    intro a b hlen
    cases a with
    | nil => simp at hlen
    | cons x as =>
      simp only [List.cons_append, List.drop_succ_cons]
      exact ih as b (by simpa using hlen)

theorem drop_append_self (a b : List Char) : (a ++ b).drop a.length = b := by
  rw [dropAppendLe a.length a b le_rfl, List.drop_length, List.nil_append]

theorem contains_iff_parts (sep : List Char) :
    ∀ s, containsSub sep s = true ↔ ∃ u v, s = u ++ sep ++ v := by
  intro s
  induction s with
  | nil =>
    simp only [containsSub, isPre_iff]
    constructor
    · rintro ⟨t, ht⟩
      exact ⟨[], t, by simpa using ht⟩
    · rintro ⟨u, v, huv⟩
      have hu : u = [] := by
        cases u with
        | nil => rfl
        | cons x u' => simp at huv
      subst hu
      exact ⟨v, by simpa using huv⟩
  | cons c cs ih =>
    simp only [containsSub, Bool.or_eq_true, isPre_iff, ih]
    constructor
    · rintro (⟨t, ht⟩ | ⟨u, v, huv⟩)
      · exact ⟨[], t, by simpa using ht⟩
      · exact ⟨c :: u, v, by simp [huv]⟩
    · rintro ⟨u, v, huv⟩
      cases u with
      | nil =>
        exact Or.inl ⟨v, by simpa using huv⟩
      | cons x u' =>
        simp only [List.cons_append, List.cons.injEq] at huv
        exact Or.inr ⟨u', v, huv.2⟩

theorem contains_append_right (sep b : List Char) (h : containsSub sep b = true) :
    ∀ a, containsSub sep (a ++ b) = true := by
  intro a
  obtain ⟨u, v, rfl⟩ := (contains_iff_parts sep b).mp h
  exact (contains_iff_parts sep _).mpr ⟨a ++ u, v, by simp⟩

theorem specAfterLast_not_contains (sep : List Char) :
    ∀ s, containsSub sep s = false → specAfterLast sep s = s := by
  intro s
  induction s with
  | nil => intro _; rfl
  | cons c cs ih =>
    intro h
    simp only [containsSub, Bool.or_eq_false_iff] at h
    simp [specAfterLast, h.1, h.2, ih h.2]

theorem specAfterLast_append (sep b : List Char) (hb : containsSub sep b = true) :
    ∀ a, specAfterLast sep (a ++ b) = specAfterLast sep b := by
  intro a
  induction a with
  | nil => simp
  | cons x a' ih =>
    have hc : containsSub sep (a' ++ b) = true := contains_append_right sep b hb a'
    simp [specAfterLast, hc, ih]

theorem noOccurTail (sep rest : List Char) (hof : overlapFree sep = true)
    (hrest : containsSub sep rest = false) :
    ∀ (c : Char) (sep' : List Char), sep = c :: sep' →
      containsSub sep (sep' ++ rest) = false := by
  intro c sep' hsep
  by_contra hcon
  have hc : containsSub sep (sep' ++ rest) = true := by
    cases h : containsSub sep (sep' ++ rest) with
    | false => exact absurd h hcon
    | true => rfl
  obtain ⟨u, v, heq⟩ := (contains_iff_parts sep _).mp hc
  by_cases hlen : sep'.length ≤ u.length
  · have h1 : (sep' ++ rest).drop sep'.length = rest := drop_append_self sep' rest
    have h2 : (u ++ sep ++ v).drop sep'.length = u.drop sep'.length ++ sep ++ v := by
      rw [List.append_assoc, dropAppendLe sep'.length u (sep ++ v) hlen, ← List.append_assoc]
    have : rest = u.drop sep'.length ++ sep ++ v := by rw [← h1, heq, h2]
    have : containsSub sep rest = true :=
      (contains_iff_parts sep rest).mpr ⟨u.drop sep'.length, v, this⟩
    rw [this] at hrest
    exact absurd hrest (by simp)
  · push_neg at hlen
    have hw : sep ++ rest = (c :: u) ++ (sep ++ v) := by
      rw [hsep]
      simp only [List.cons_append, List.cons.injEq, true_and]
      rw [heq, List.append_assoc, hsep]
      simp
    have hwlen : (c :: u).length ≤ sep.length := by
      rw [hsep]
      simp only [List.length_cons]
      omega
    have h3 : (sep ++ rest).drop (c :: u).length =
        sep.drop (c :: u).length ++ rest := dropAppendLe _ sep rest hwlen
    have h4 : ((c :: u) ++ (sep ++ v)).drop (c :: u).length = sep ++ v :=
      drop_append_self (c :: u) (sep ++ v)
    have h5 : sep.drop (c :: u).length ++ rest = sep ++ v := by
      rw [← h3, hw, h4]
    have h6 : isPre (sep.drop (c :: u).length) sep = true :=
      isPre_of_append_eq _ sep rest v h5 (by simp [List.length_drop])
    have hklt : (c :: u).length < sep.length := by
      rw [hsep]; simp only [List.length_cons]; omega
    have hall := (List.all_eq_true.mp hof) ((c :: u).length) (List.mem_range.mpr hklt)
    simp only [List.length_cons, Bool.or_eq_true, beq_iff_eq, Bool.not_eq_true'] at hall
    simp only [List.length_cons] at h6
    rcases hall with h | h
    · omega
    · rw [h6] at h
      exact absurd h (by simp)

theorem specAfterLast_cons (sep : List Char) (c : Char) (cs : List Char) :
    specAfterLast sep (c :: cs) =
      if containsSub sep cs then specAfterLast sep cs
      else if isPre sep (c :: cs) then (c :: cs).drop sep.length
      else c :: cs := rfl

theorem specAfterLast_self_append (sep rest : List Char) (hof : overlapFree sep = true)
    (hsep : sep ≠ []) (hrest : containsSub sep rest = false) :
    specAfterLast sep (sep ++ rest) = rest := by
  cases sep with
  | nil => exact absurd rfl hsep
  | cons c sep' =>
    have hno : containsSub (c :: sep') (sep' ++ rest) = false :=
      noOccurTail (c :: sep') rest hof hrest c sep' rfl
    have hpre : isPre (c :: sep') ((c :: sep') ++ rest) = true :=
      isPre_append_self (c :: sep') rest
    have hdrop : ((c :: sep') ++ rest).drop (c :: sep').length = rest :=
      drop_append_self (c :: sep') rest
    simp only [List.cons_append] at hpre hdrop ⊢
    rw [specAfterLast_cons, hno]
    simp only [Bool.false_eq_true, if_false, hpre, if_true, hdrop]

theorem pySplitAux_ne_nil (sep : List Char) (fuel : Nat) (s : List Char) :
    pySplitAux sep fuel s ≠ [] := by
  cases fuel with
  | zero => simp [pySplitAux]
  | succ fuel =>
    cases s with
    | nil => simp [pySplitAux]
    | cons c cs =>
      rw [pySplitAux]
      split
      · simp
      · split
        · simp
        · simp

theorem isEmpty_false_of_ne_nil (sep : List Char) (h : sep ≠ []) : sep.isEmpty = false := by
  cases sep with
  | nil => exact absurd rfl h
  | cons c cs => rfl

theorem pySplitAux_single (sep : List Char) :
    ∀ (fuel : Nat) (s : List Char), containsSub sep s = false → s.length ≤ fuel →
      pySplitAux sep fuel s = [s] := by
  intro fuel
  induction fuel with
  | zero => intro s _ _; rfl
  | succ fuel ih =>
    intro s hc hlen
    cases s with
    | nil => rfl
    | cons c cs =>
      simp only [containsSub, Bool.or_eq_false_iff] at hc
      rw [pySplitAux]
      simp only [hc.1, Bool.false_and, Bool.false_eq_true, if_false]
      rw [ih cs hc.2 (by simpa using hlen)]

theorem pySplitAux_two_le (sep : List Char) (hsep : sep ≠ []) :
    ∀ (fuel : Nat) (s : List Char), containsSub sep s = true → s.length ≤ fuel →
      2 ≤ (pySplitAux sep fuel s).length := by
  intro fuel
  induction fuel with
  | zero =>
    intro s hc hlen
    have : s = [] := List.eq_nil_of_length_eq_zero (Nat.le_zero.mp hlen)
    subst this
    simp only [containsSub] at hc
    cases sep with
    | nil => exact absurd rfl hsep
    | cons a as => simp [isPre] at hc
  | succ fuel ih =>
    intro s hc hlen
    cases s with
    | nil =>
      simp only [containsSub] at hc
      cases sep with
      | nil => exact absurd rfl hsep
      | cons a as => simp [isPre] at hc
    | cons c cs =>
      rw [pySplitAux]
      by_cases hp : isPre sep (c :: cs) = true
      · simp only [hp, isEmpty_false_of_ne_nil sep hsep, Bool.not_false, Bool.and_true,
          if_true, List.length_cons]
        have := pySplitAux_ne_nil sep fuel ((c :: cs).drop sep.length)
        have : 1 ≤ (pySplitAux sep fuel ((c :: cs).drop sep.length)).length := by
          cases h : pySplitAux sep fuel ((c :: cs).drop sep.length) with
          | nil => exact absurd h this
          | cons x xs => simp
        omega
      · simp only [containsSub, Bool.or_eq_true] at hc
        rcases hc with h | h
        · exact absurd h hp
        · have hb : isPre sep (c :: cs) = false := by
            cases hh : isPre sep (c :: cs) with
            | false => rfl
            | true => exact absurd hh hp
          simp only [hb, Bool.false_and, Bool.false_eq_true, if_false]
          have h2 := ih cs h (by simpa using hlen)
          cases hP : pySplitAux sep fuel cs with
          | nil => exact absurd hP (pySplitAux_ne_nil sep fuel cs)
          | cons h0 t0 =>
            rw [hP] at h2
            simp only [List.length_cons] at h2 ⊢
            omega

theorem pySplitAux_getLastD (sep : List Char) (hsep : sep ≠ []) (hof : overlapFree sep = true) :
    ∀ (fuel : Nat) (s : List Char), s.length ≤ fuel →
      List.getLastD (pySplitAux sep fuel s) [] = specAfterLast sep s := by
  intro fuel
  induction fuel with
  | zero =>
    intro s hlen
    have : s = [] := List.eq_nil_of_length_eq_zero (Nat.le_zero.mp hlen)
    subst this
    rfl
  | succ fuel ih =>
    intro s hlen
    cases s with
    | nil => rfl
    | cons c cs =>
      rw [pySplitAux]
      by_cases hp : isPre sep (c :: cs) = true
      · simp only [hp, isEmpty_false_of_ne_nil sep hsep, Bool.not_false, Bool.and_true, if_true]
        obtain ⟨t, ht⟩ := (isPre_iff sep (c :: cs)).mp hp
        have hdrop : (c :: cs).drop sep.length = t := by
          rw [ht]; exact drop_append_self sep t
        have htlen : t.length ≤ fuel := by
          have h1 : (c :: cs).length = sep.length + t.length := by rw [ht]; simp
          have h2 : 1 ≤ sep.length := by
            cases sep with
            | nil => exact absurd rfl hsep
            | cons a as => simp
          simp only [List.length_cons] at h1 hlen
          omega
        rw [hdrop, List.getLastD_cons, ih t htlen, ht]
        by_cases hct : containsSub sep t = true
        · rw [specAfterLast_append sep t hct sep]
        · have hct' : containsSub sep t = false := by
            cases hh : containsSub sep t with
            | false => rfl
            | true => exact absurd hh hct
          rw [specAfterLast_self_append sep t hof hsep hct',
            specAfterLast_not_contains sep t hct']
      · have hb : isPre sep (c :: cs) = false := by
          cases hh : isPre sep (c :: cs) with
          | false => rfl
          | true => exact absurd hh hp
        simp only [hb, Bool.false_and, Bool.false_eq_true, if_false]
        have hcslen : cs.length ≤ fuel := by simpa using hlen
        by_cases hcc : containsSub sep cs = true
        · have h2 := pySplitAux_two_le sep hsep fuel cs hcc hcslen
          cases hP : pySplitAux sep fuel cs with
          | nil => exact absurd hP (pySplitAux_ne_nil sep fuel cs)
          | cons h0 t0 =>
            rw [hP] at h2
            cases t0 with
            | nil => simp at h2
            | cons h1 t1 =>
              have hcode : List.getLastD ((c :: h0) :: h1 :: t1) [] =
                  List.getLastD (h0 :: h1 :: t1) [] := by
                rw [List.getLastD_cons, List.getLastD_cons, List.getLastD_cons,
                  List.getLastD_cons]
              rw [hcode, ← hP, ih cs hcslen, specAfterLast_cons, hcc]
              simp only [if_true]
        · have hcc' : containsSub sep cs = false := by
            cases hh : containsSub sep cs with
            | false => rfl
            | true => exact absurd hh hcc
          rw [pySplitAux_single sep fuel cs hcc' hcslen]
          rw [specAfterLast_cons, hcc', hb]
          simp

theorem pySplit_getLastD (sep : List Char) (hsep : sep ≠ []) (hof : overlapFree sep = true)
    (s : List Char) : List.getLastD (pySplit sep s) [] = specAfterLast sep s :=
  pySplitAux_getLastD sep hsep hof s.length s le_rfl

theorem pySplitOnce_eq_spec (sep : List Char) (hsep : sep ≠ []) :
    ∀ s, pySplitOnce sep s = (specBeforeFirst sep s, specAfterFirst sep s) := by
  intro s
  induction s with
  | nil => rfl
  | cons c cs ih =>
    rw [pySplitOnce]
    by_cases hp : isPre sep (c :: cs) = true
    · simp only [hp, isEmpty_false_of_ne_nil sep hsep, Bool.not_false, Bool.and_true, if_true,
        specBeforeFirst, specAfterFirst]
    · have hb : isPre sep (c :: cs) = false := by
        cases hh : isPre sep (c :: cs) with
        | false => rfl
        | true => exact absurd hh hp
      simp only [hb, Bool.false_and, Bool.false_eq_true, if_false, ih,
        specBeforeFirst, specAfterFirst]

theorem getLastD_append_single {α : Type} (l : List α) (a : α) (d : α) :
    List.getLastD (l ++ [a]) d = a := by
  induction l generalizing d with
  | nil => rfl
  | cons c l' ih =>
    rw [List.cons_append, List.getLastD_cons]
    exact ih c

theorem lookupKey_eraseKey_self {β : Type} (k : List Char) :
    ∀ l : List (List Char × β), lookupKey k (eraseKey k l) = none := by
  intro l
  induction l with
  | nil => rfl
  | cons p rest ih =>
    obtain ⟨k', v⟩ := p
    rw [eraseKey]
    by_cases h : k' = k
    · simp [h, ih]
    · simp only [h, if_false, lookupKey]
      simp [h, ih]

theorem eraseKey_of_not_mem {β : Type} (k : List Char) :
    ∀ l : List (List Char × β), k ∉ l.map Prod.fst → eraseKey k l = l := by
  intro l
  induction l with
  | nil => intro _; rfl
  | cons p rest ih =>
    obtain ⟨k', v⟩ := p
    intro h
    simp only [List.map_cons, List.mem_cons, not_or] at h
    rw [eraseKey]
    have hk : k' ≠ k := fun he => h.1 he.symm
    simp [hk, ih h.2]

theorem eraseKey_length {β : Type} (k : List Char) :
    ∀ (l : List (List Char × β)) (v : β), (l.map Prod.fst).Nodup →
      lookupKey k l = some v → (eraseKey k l).length + 1 = l.length := by
  intro l
  induction l with
  | nil => intro v _ h; simp [lookupKey] at h
  | cons p rest ih =>
    obtain ⟨k', v'⟩ := p
    intro v hnd hl
    simp only [List.map_cons, List.nodup_cons] at hnd
    rw [eraseKey]
    by_cases h : k' = k
    · subst h
      rw [eraseKey_of_not_mem k' rest hnd.1]
      simp
    · simp only [h, if_false]
      rw [lookupKey] at hl
      simp only [h, if_false] at hl
      simp only [List.length_cons]
      rw [ih v hnd.2 hl]

/-- C1: for every input text containing the final-answer marker, `parse`
returns `Finish` whose output is everything after the last occurrence of that
marker, trimmed of surrounding whitespace, regardless of any action markers
also present in the text. -/
theorem parse_finalAnswer_afterLast (text : List Char)
    (h : containsSub finalMarkerChars text = true) :
    parse text = .finish (pyStrip (specAfterLast finalMarkerChars text)) := by
  have hb := pySplit_getLastD finalMarkerChars (by decide) (by decide) text
  simp only [List.getLastD_eq_getLast?] at hb
  simp [parse, h, hb]

/-- Witness: C1 applied to a concrete completion holding thought, action and
final-answer text. -/
theorem parse_finalAnswer_afterLast_witness :
    containsSub finalMarkerChars wFinalText = true ∧
      parse wFinalText = .finish (pyStrip (specAfterLast finalMarkerChars wFinalText)) :=
  ⟨by decide, parse_finalAnswer_afterLast wFinalText (by decide)⟩

/-- C2 counterexample: `ceTextA` contains both action markers and no
final-answer marker, yet `parse` returns a `Finish`, because no action-input
marker follows the last action marker; and on `ceTextB` the raw input the
parser returns is `"Observation: obs"` while the claim's
truncate-then-trim extraction yields the empty string. -/
theorem parse_action_claim_counterexample :
    (containsSub actionMarkerChars ceTextA = true ∧
      containsSub inputMarkerChars ceTextA = true ∧
      containsSub finalMarkerChars ceTextA = false ∧
      (parse ceTextA).isAct = false) ∧
    (containsSub actionMarkerChars ceTextB = true ∧
      containsSub inputMarkerChars ceTextB = true ∧
      containsSub finalMarkerChars ceTextB = false ∧
      parse ceTextB = .action ("t".toList) ("Observation: obs".toList) ∧
      claimRawInput ceTextB = []) := by
  decide

/-- C2 amended: for every text with no final-answer marker, with both action
markers, and in which an action-input marker occurs after the last action
marker, `parse` returns `Action` with the tool name between the last action
marker and the first following action-input marker (trimmed) and the raw
input obtained by trimming the remainder, truncating at an observation
marker still present after trimming, and stripping outer quotes. -/
theorem parse_action_amended (text : List Char)
    (hf : containsSub finalMarkerChars text = false)
    (ha : containsSub actionMarkerChars text = true)
    (hi : containsSub inputMarkerChars text = true)
    (hblock : containsSub inputMarkerChars (specAfterLast actionMarkerChars text) = true) :
    parse text = .action
      (pyStrip (specBeforeFirst inputMarkerChars (specAfterLast actionMarkerChars text)))
      (amendedRawInput text) := by
  have hb := pySplit_getLastD actionMarkerChars (by decide) (by decide) text
  have ho := pySplitOnce_eq_spec inputMarkerChars (by decide)
  have hq := pySplitOnce_eq_spec obsMarkerChars (by decide)
  simp only [List.getLastD_eq_getLast?] at hb
  simp [parse, hf, ha, hi, hb, hblock, ho, hq, amendedRawInput]

/-- Witness: C2 amended applied to a concrete well-formed action
completion. -/
theorem parse_action_amended_witness :
    containsSub finalMarkerChars wActionText = false ∧
      containsSub inputMarkerChars (specAfterLast actionMarkerChars wActionText) = true ∧
      parse wActionText = .action
        (pyStrip (specBeforeFirst inputMarkerChars (specAfterLast actionMarkerChars wActionText)))
        (amendedRawInput wActionText) :=
  ⟨by decide, by decide,
    parse_action_amended wActionText (by decide) (by decide) (by decide) (by decide)⟩

/-- C3: `parse` is total by construction, and on every text with no
final-answer marker that lacks an action marker, or lacks an action-input
marker, or whose last action block has no action-input marker in it (the
malformed mid-pattern case in which the source falls back rather than
propagating), it returns `Finish` with the whole trimmed text. -/
theorem parse_fallback_finish (text : List Char)
    (hf : containsSub finalMarkerChars text = false)
    (h : containsSub actionMarkerChars text = false ∨
      containsSub inputMarkerChars text = false ∨
      containsSub inputMarkerChars (List.getLastD (pySplit actionMarkerChars text) []) = false) :
    parse text = .finish (pyStrip text) := by
  rcases h with h | h | h
  · simp [parse, hf, h]
  · simp [parse, hf, h]
  · simp only [List.getLastD_eq_getLast?] at h
    by_cases hai : (containsSub actionMarkerChars text && containsSub inputMarkerChars text) = true
    · simp [parse, hf, hai, h]
    · have hai' : (containsSub actionMarkerChars text &&
          containsSub inputMarkerChars text) = false := by
        cases hh : containsSub actionMarkerChars text && containsSub inputMarkerChars text with
        | false => rfl
        | true => exact absurd hh hai
      simp [parse, hf, hai']

/-- Witness: C3 applied to a bare conversational reply. -/
theorem parse_fallback_finish_witness :
    containsSub finalMarkerChars wBareText = false ∧
      parse wBareText = .finish (pyStrip wBareText) :=
  ⟨by decide, parse_fallback_finish wBareText (by decide) (Or.inl (by decide))⟩

/-- C4: repair tier monotonicity — whenever the strict parse of the input
succeeds, `safeParseJson` returns exactly that strict result; the later
tiers are never consulted and cannot change the outcome. -/
theorem repair_tier_one_exact {α : Type} (strict : List Char → Option α)
    (mk : List Char → List Char → α) (input : List Char) (v : α)
    (h : strict input = some v) : safeParseJson strict mk input = some v := by
  simp [safeParseJson, h]

/-- Witness: C4 at a strict parser stub succeeding on a concrete strict JSON
input. -/
theorem repair_tier_one_exact_witness :
    demoStrictA demoInputA = some demoDictA ∧
      safeParseJson demoStrictA mkFPDict demoInputA = some demoDictA :=
  ⟨by decide, repair_tier_one_exact demoStrictA mkFPDict demoInputA demoDictA (by decide)⟩

/-- C5: when every repair tier fails — strict parse fails on the input and on
the cleaned input, and the tier-3 regex extraction misses at least one of the
two required fields — `safeParseJson` returns `none` and the write-file
wrapper returns the error-status observation instead of raising. -/
theorem repair_all_tiers_fail (strict : List Char → Option StrDict) (input : List Char)
    (h1 : strict input = none) (h2 : strict (cleanedOf input) = none)
    (h3 : searchFilePath (cleanedOf input) = none ∨ searchContent (cleanedOf input) = none) :
    safeParseJson strict mkFPDict input = none ∧
      writeFileWrapper strict input = .reply errStatusChars invalidJsonMsgChars := by
  have hs : safeParseJson strict mkFPDict input = none := by
    rcases h3 with h3 | h3
    · simp [safeParseJson, h1, h2, h3]
    · cases hfp : searchFilePath (cleanedOf input) with
      | none => simp [safeParseJson, h1, h2, hfp]
      | some m => simp [safeParseJson, h1, h2, hfp, h3]
  exact ⟨hs, by simp [writeFileWrapper, fileWrapperBody, hs]⟩

/-- Witness: C5 at an unrecoverable concrete input and an always-failing
strict parser. -/
theorem repair_all_tiers_fail_witness :
    alwaysNone demoInputB = none ∧
      safeParseJson alwaysNone mkFPDict demoInputB = none ∧
      writeFileWrapper alwaysNone demoInputB = .reply errStatusChars invalidJsonMsgChars := by
  have h := repair_all_tiers_fail alwaysNone demoInputB rfl rfl (Or.inl (by decide))
  exact ⟨rfl, h.1, h.2⟩

/-- C6: when the agent terminates without an output string, the
caller-visible result synthesized by `main.py` is never empty: with
completed steps it is the summary naming the last step's tool and
observation, and with none it is the explicit fallback message. -/
theorem stopped_result_nonempty (output : List Char) (steps : List (List Char × List Char))
    (h : output = []) :
    (steps = [] → deriveResponseText output steps = noOutputChars) ∧
    (∀ (ini : List (List Char × List Char)) (tl ob : List Char), steps = ini ++ [(tl, ob)] →
      deriveResponseText output steps = partialPrefixChars ++ tl ++ resultSepChars ++ ob) ∧
    deriveResponseText output steps ≠ [] := by
  subst h
  have hsyn : ∀ (ini : List (List Char × List Char)) (tl ob : List Char),
      deriveResponseText [] (ini ++ [(tl, ob)]) =
        partialPrefixChars ++ tl ++ resultSepChars ++ ob := by
    intro ini tl ob
    have hne : (ini ++ [(tl, ob)]).isEmpty = false := by
      cases ini <;> rfl
    simp [deriveResponseText, hne, getLastD_append_single]
  refine ⟨?_, ?_, ?_⟩
  · intro hst
    subst hst
    rfl
  · intro ini tl ob hst
    subst hst
    exact hsyn ini tl ob
  · rcases List.eq_nil_or_concat steps with hst | ⟨ini, ⟨tl, ob⟩, hst⟩
    · subst hst
      intro hc
      exact absurd hc (by decide)
    · rw [List.concat_eq_append] at hst
      subst hst
      rw [hsyn ini tl ob]
      intro hc
      have hl := congrArg List.length hc
      have h1 : 1 ≤ partialPrefixChars.length := by decide
      simp only [List.length_append, List.length_nil] at hl
      omega

/-- Witness: C6 at an empty output with one completed step, and at an empty
output with no steps. -/
theorem stopped_result_nonempty_witness :
    deriveResponseText [] [(("write_file".toList), ("ok".toList))] =
      partialPrefixChars ++ ("write_file".toList) ++ resultSepChars ++ ("ok".toList) ∧
    deriveResponseText [] ([] : List (List Char × List Char)) = noOutputChars ∧
    deriveResponseText [] [(("write_file".toList), ("ok".toList))] ≠ [] := by
  have h1 := stopped_result_nonempty [] [(("write_file".toList), ("ok".toList))] rfl
  have h2 := stopped_result_nonempty [] ([] : List (List Char × List Char)) rfl
  exact ⟨h1.2.1 [] ("write_file".toList) ("ok".toList) rfl, h2.1 rfl, h1.2.2⟩

/-- C7: lazy session expiry — when a stored session's idle time strictly
exceeds the timeout, `getSession` deletes it and returns `None` in the same
atomic step, afterwards the id no longer resolves, and (under the dict's
unique-keys invariant) the active-session count drops by exactly one. -/
theorem session_lazy_expiry (now : Int) (mgr : SessionMgr) (sid : List Char) (s : SessionRec)
    (hl : lookupKey sid mgr.sessions = some s)
    (ht : mgr.timeout < now - s.lastAccessed) :
    (getSession now mgr sid).1 = none ∧
    (getSession now mgr sid).2.sessions = eraseKey sid mgr.sessions ∧
    lookupKey sid (getSession now mgr sid).2.sessions = none ∧
    ((mgr.sessions.map Prod.fst).Nodup →
      activeSessionsCount (getSession now mgr sid).2 + 1 = activeSessionsCount mgr) := by
  have hg : getSession now mgr sid =
      (none, { mgr with sessions := eraseKey sid mgr.sessions }) := by
    simp [getSession, hl, if_pos ht]
  rw [hg]
  exact ⟨rfl, rfl, lookupKey_eraseKey_self sid mgr.sessions,
    fun hnd => eraseKey_length sid mgr.sessions s hnd hl⟩

/-- Witness: C7 at a one-session store probed past its timeout. -/
theorem session_lazy_expiry_witness :
    lookupKey ("abc".toList) demoMgr.sessions = some demoSess ∧
    (getSession 100 demoMgr ("abc".toList)).1 = none ∧
    lookupKey ("abc".toList) (getSession 100 demoMgr ("abc".toList)).2.sessions = none ∧
    activeSessionsCount (getSession 100 demoMgr ("abc".toList)).2 + 1 =
      activeSessionsCount demoMgr := by
  have h := session_lazy_expiry 100 demoMgr ("abc".toList) demoSess (by decide) (by decide)
  exact ⟨by decide, h.1, h.2.2.1, h.2.2.2 (by decide)⟩

/-- C8: `add_message` appends exactly one message at the end of the history
(leaving every earlier message unchanged) and sets `last_accessed` to the
current instant. -/
theorem addMessage_append_one (now : Int) (s : SessionRec) (role content : List Char) :
    (addMessage now s role content).messages = s.messages ++ [⟨role, content, now⟩] ∧
    (addMessage now s role content).messages.length = s.messages.length + 1 ∧
    (addMessage now s role content).messages.take s.messages.length = s.messages ∧
    (addMessage now s role content).lastAccessed = now := by
  refine ⟨rfl, by simp [addMessage], ?_, rfl⟩
  simp [addMessage, List.take_left]

/-- C9: review is always non-fatal — an exception during the review call
yields, in both lead agents, a verdict whose decision is the error value and
whose message describes the failure, instead of a propagated exception. -/
theorem review_exception_nonfatal (e : List Char) :
    devopsReview (.exc e) =
      ⟨("error".toList), ("Review failed: ".toList) ++ e, ("error".toList), [], [e], []⟩ ∧
    devReview (.exc e) =
      ⟨("error".toList), ("Review failed: ".toList) ++ e, ("error".toList)⟩ :=
  ⟨rfl, rfl⟩

/-- C10: for a parsed tool input whose path ends in `.py`, both file wrappers
silently rewrite the content through `fixPythonFormatting` before delegating
to the backend; content holding literal backslash-n and no real newline has
its literal backslash-n and backslash-t sequences converted to real newlines
and tabs, and content already holding a real newline passes unchanged. -/
theorem pyFile_content_rewrite (strict : List Char → Option StrDict) (input fp ct : List Char)
    (hparse : safeParseJson strict mkFPDict input = some (mkFPDict fp ct))
    (hfp : fp ≠ [])
    (hpy : pyExtChars.isSuffixOf fp = true) :
    writeFileWrapper strict input = .fileOp false fp (fixPythonFormatting ct) ∧
    appendToFileWrapper strict input = .fileOp true fp (fixPythonFormatting ct) ∧
    (containsSub litBackslashN ct = true → containsSub ['\n'] ct = false →
      fixPythonFormatting ct =
        replaceAll litBackslashT ['\t'] (replaceAll litBackslashN ['\n'] ct)) ∧
    (containsSub ['\n'] ct = true → fixPythonFormatting ct = ct) := by
  have hne : fpKeyChars ≠ ctKeyChars := by decide
  have hemp : fp.isEmpty = false := isEmpty_false_of_ne_nil fp hfp
  have hbody : ∀ b, fileWrapperBody b strict input = .fileOp b fp (fixPythonFormatting ct) := by
    intro b
    simp [fileWrapperBody, hparse, mkFPDict, lookupKey, hne, hemp, hpy]
  refine ⟨hbody false, hbody true, ?_, ?_⟩
  · intro h1 h2
    simp [fixPythonFormatting, h1, h2]
  · intro h
    simp [fixPythonFormatting, h]

/-- Witness: C10 at a strict parser stub yielding a `.py` path with
single-line content holding literal backslash-n sequences. -/
theorem pyFile_content_rewrite_witness :
    safeParseJson demoStrictC mkFPDict demoInputC =
      some (mkFPDict ("a.py".toList) ("def f():\\n    pass".toList)) ∧
    writeFileWrapper demoStrictC demoInputC =
      .fileOp false ("a.py".toList) (fixPythonFormatting ("def f():\\n    pass".toList)) ∧
    appendToFileWrapper demoStrictC demoInputC =
      .fileOp true ("a.py".toList) (fixPythonFormatting ("def f():\\n    pass".toList)) ∧
    fixPythonFormatting ("def f():\\n    pass".toList) =
      replaceAll litBackslashT ['\t']
        (replaceAll litBackslashN ['\n'] ("def f():\\n    pass".toList)) := by
  have h := pyFile_content_rewrite demoStrictC demoInputC ("a.py".toList)
    ("def f():\\n    pass".toList) (by decide) (by decide) (by decide)
  exact ⟨by decide, h.1, h.2.1, h.2.2.1 (by decide) (by decide)⟩
